import Mathlib

/-!
Verification of the Bazel gopackagesdriver (driver.go and its stdin-protocol
variant) and the companion package-descriptor builder (package.go).

The Go code is shallowly embedded: strings stay strings, byte buffers become
lists of naturals below 256, Go maps become association lists with
replace-on-insert semantics, and fallible functions return Except or an
explicit outcome type. Subprocess and file-system effects are factored out:
each embedded function takes the data the effect would have produced
(for example the bytes of the build-event log) as an argument.
-/

namespace GoPackagesDriver

/-! ## Constants from driver.go -/

def aspectFileName : String := "@io_bazel_rules_go//go/tools/gopackagesdriver:aspect.bzl"

def outputGroupName : String := "gopackagesdriver"

/-! ## Aspect-name synthesis (driver.go, buildPkgFiles)

The strings.Builder section of buildPkgFiles: writes the aspect file name,
then the common stem, then one token per enabled facet, then the suffix.
-/

def synthAspectName (needDeps needExport needTest : Bool) : String :=
  let b := aspectFileName
  let b := b ++ "%gopackagesdriver_"
  let b := if needDeps then b ++ "deps_" else b
  let b := if needExport then b ++ "export_" else b
  let b := if needTest then b ++ "test_" else b
  b ++ "aspect"

/-! ## packages.Package, restricted to the fields the driver touches.

Imports is the map from import path to the placeholder package stored there;
the Go code only ever stores a package whose sole populated field is ID, so
the model maps the import path directly to that ID string.
-/

structure Package where
  ID : String := ""
  Name : String := ""
  PkgPath : String := ""
  GoFiles : List String := []
  CompiledGoFiles : List String := []
  OtherFiles : List String := []
  ExportFile : String := ""
  Imports : List (String × String) := []
deriving Repr, DecidableEq

/-! ## Path canonicalization (stdin-protocol driver, absPkgPaths)

filepath.Join concatenates with a separator and then lexically cleans the
result; the cleaning step never changes which root a path lands under, so the
model keeps the concatenation only.
-/

def joinPath (dir path : String) : String := dir ++ "/" ++ path

/-- strings.HasPrefix, stated over the character lists so that it evaluates
inside the kernel. -/
def strStartsWith (s pre : String) : Bool := pre.toList.isPrefixOf s.toList

/-- strings.HasSuffix, stated over the character lists so that it evaluates
inside the kernel. -/
def strEndsWith (s suf : String) : Bool := suf.toList.isSuffixOf s.toList

def absPathIfNecessary (workspaceDir execDir : String) (path : String) : String :=
  if strStartsWith path "external/" then joinPath execDir path
  else if ¬ strStartsWith path "/" then joinPath workspaceDir path
  else path

def absPkgPaths (pkg : Package) (workspaceDir execDir : String) : Package :=
  { pkg with
    GoFiles := pkg.GoFiles.map (absPathIfNecessary workspaceDir execDir)
    CompiledGoFiles := pkg.CompiledGoFiles.map (absPathIfNecessary workspaceDir execDir)
    OtherFiles := pkg.OtherFiles.map (absPathIfNecessary workspaceDir execDir)
    ExportFile :=
      if pkg.ExportFile ≠ "" then absPathIfNecessary workspaceDir execDir pkg.ExportFile
      else pkg.ExportFile }

/-! ## queryTargets output parsing (driver.go)

The loop repeatedly takes the data up to the first newline as one target,
strips a single trailing carriage return, and continues after the newline;
when no newline remains the loop ends and whatever is left is dropped.
-/

def stripCR (line : List Char) : List Char :=
  if line.getLast? = some '\r' then line.dropLast else line

def splitAtNewline : List Char → Option (List Char × List Char)
  | [] => none
  | c :: cs =>
    if c = '\n' then some ([], cs)
    else
      match splitAtNewline cs with
      | none => none
      | some (line, rest) => some (c :: line, rest)

theorem splitAtNewline_length {data line rest : List Char}
    (h : splitAtNewline data = some (line, rest)) : rest.length < data.length := by
  induction data generalizing line rest with
  | nil => simp [splitAtNewline] at h
  | cons c cs ih =>
    by_cases hc : c = '\n'
    · simp [splitAtNewline, hc] at h
      simp [← h.2]
    · simp only [splitAtNewline, if_neg hc] at h
      match hrec : splitAtNewline cs with
      | none => simp [hrec] at h
      | some (line2, rest2) =>
        simp [hrec] at h
        obtain ⟨-, h2⟩ := h
        subst h2
        have := ih hrec
        simp only [List.length_cons]
        omega

def parseQueryOutput (data : List Char) : List (List Char) :=
  match h : splitAtNewline data with
  | none => []
  | some (line, rest) => stripCR line :: parseQueryOutput rest
termination_by data.length
decreasing_by exact splitAtNewline_length h

/-! ## The package-list rewrite loop in list()

Go evaluates the range expression once, so the loop iterates over a snapshot
of the original slice while the body appends to the (growing) slice variable;
absPkgPaths mutates through the pointer and does not change its identity, so
elements are modelled by their pointer identity.
-/

def listRewriteLoop (snapshot acc : List α) : List α :=
  match snapshot with
  | [] => acc
  | p :: rest => listRewriteLoop rest (acc ++ [p])

def listPackagesAfterRewrite (pkgs : List α) : List α := listRewriteLoop pkgs pkgs

theorem listRewriteLoop_eq_append (snapshot acc : List α) :
    listRewriteLoop snapshot acc = acc ++ snapshot := by
  induction snapshot generalizing acc with
  | nil => simp [listRewriteLoop]
  | cons p rest ih => simp [listRewriteLoop, ih]

/-! ## Go maps as association lists

Assignment replaces the binding for the key; lookup finds the current
binding. Only lookup results matter, never the order of entries.
-/

def lookupOrNil (m : List (String × List String)) (k : String) : List String :=
  match m.lookup k with
  | some v => v
  | none => []

def mapInsert (m : List (String × β)) (k : String) (v : β) : List (String × β) :=
  (k, v) :: m.filter (fun kv => kv.1 != k)

theorem lookupOrNil_of_not_mem_keys {m : List (String × List String)} {k : String}
    (h : k ∉ m.map Prod.fst) : lookupOrNil m k = [] := by
  induction m with
  | nil => rfl
  | cons kv m ih =>
    simp only [List.map_cons, List.mem_cons] at h
    push_neg at h
    have hbeq : (k == kv.1) = false := by simp [h.1]
    simp only [lookupOrNil, List.lookup, hbeq]
    have hm := ih h.2
    simp only [lookupOrNil] at hm
    exact hm

theorem sdiff_insert_card_lt {K V : Finset String} {p : String} (hk : p ∈ K) (hv : p ∉ V) :
    (K \ insert p V).card < (K \ V).card := by
  apply Finset.card_lt_card
  rw [Finset.ssubset_def]
  constructor
  · intro x hx
    simp only [Finset.mem_sdiff, Finset.mem_insert] at hx ⊢
    push_neg at hx
    exact ⟨hx.1, hx.2.2⟩
  · intro hsub
    have hp : p ∈ K \ V := Finset.mem_sdiff.mpr ⟨hk, hv⟩
    have := hsub hp
    simp [Finset.mem_sdiff] at this

theorem sdiff_insert_of_not_mem {K V : Finset String} {p : String} (hk : p ∉ K) :
    K \ insert p V = K \ V := by
  ext x
  simp only [Finset.mem_sdiff, Finset.mem_insert]
  constructor
  · rintro ⟨hxK, hx⟩
    push_neg at hx
    exact ⟨hxK, hx.2⟩
  · rintro ⟨hxK, hx⟩
    refine ⟨hxK, ?_⟩
    push_neg
    exact ⟨fun he => hk (he ▸ hxK), hx⟩

/-! ## Visited-once depth-first traversal

Both drivers contain the same recursive pattern: a closure over shared
visited/accumulator maps that returns immediately on an already-visited
identifier, otherwise marks it and recurses into its children. The
embedding makes the recursion stack explicit (children are pushed in front
of the remaining work, giving the same first-visit order) and returns the
visited identifiers, most recent first.
-/

def dfsVisit (adj : List (String × List String)) (stack visited : List String) :
    List String :=
  match stack with
  | [] => visited
  | p :: stack₂ =>
    if p ∈ visited then dfsVisit adj stack₂ visited
    else dfsVisit adj (lookupOrNil adj p ++ stack₂) (p :: visited)
termination_by (((adj.map Prod.fst).toFinset \ visited.toFinset).card, stack.length)
decreasing_by
  · apply Prod.Lex.right
    simp
  · rename_i hp
    by_cases hk : p ∈ (adj.map Prod.fst).toFinset
    · apply Prod.Lex.left
      have : (p :: visited).toFinset = insert p visited.toFinset := by simp
      rw [this]
      exact sdiff_insert_card_lt hk (by simpa using hp)
    · have h1 : (p :: visited).toFinset = insert p visited.toFinset := by simp
      have h2 : (adj.map Prod.fst).toFinset \ insert p visited.toFinset
          = (adj.map Prod.fst).toFinset \ visited.toFinset := sdiff_insert_of_not_mem hk
      rw [h1, h2]
      apply Prod.Lex.right
      have h3 : lookupOrNil adj p = [] :=
        lookupOrNil_of_not_mem_keys (by simpa using hk)
      simp [h3]

/-! ## Fallback loader (listFallback)

packages.Load and its package-pointer graph are factored into a LoadOutcome
argument: either the loader error, or the root package ids together with
the adjacency of imports (id to imported ids); packages are modelled by
their pointer identity (their id).
-/

inductive LoadOutcome where
  | failure (e : String)
  | success (roots : List String) (imports : List (String × List String))

structure DriverResponseIds where
  Roots : List String := []
  Packages : List String := []
deriving Repr, DecidableEq

def listFallback (outcome : LoadOutcome) : DriverResponseIds × Option String :=
  match outcome with
  | .failure _ => ({}, none)
  | .success roots imports =>
    ({ Roots := roots, Packages := (dfsVisit imports roots []).reverse }, none)

/-! ## Build-event decoding (buildPkgFiles)

proto.DecodeVarint from github.com/golang/protobuf: base-128 varint over at
most 64 bits of value; returns the value and the number of bytes consumed,
or (0, 0) when the buffer ends mid-varint or the 64-bit range is exceeded.
Bytes are naturals below 256; uint64 overflow is cut off with an explicit
modulus.
-/

def decodeVarintLoop (buf : List Nat) (shift x n : Nat) : Nat × Nat :=
  if shift < 64 then
    match buf with
    | [] => (0, 0)
    | b :: rest =>
      let x₂ := (x ||| ((b &&& 0x7F) <<< shift)) % 2 ^ 64
      if b &&& 0x80 = 0 then (x₂, n + 1)
      else decodeVarintLoop rest (shift + 7) x₂ (n + 1)
  else (0, 0)

def decodeVarint (buf : List Nat) : Nat × Nat :=
  decodeVarintLoop buf 0 0 0

/-- A build event, restricted to the two shapes buildPkgFiles consults: the
target-completed event (label and aspect from the event id, success flag and
output groups from the payload, each group carrying its name and its
file-set ids) and the named-set-of-files event (set id from the event id,
direct file names and child set ids from the payload). Everything else is
other. -/
inductive BuildEvent where
  | targetCompleted (label aspect : String) (success : Bool)
      (outputGroups : List (String × List String))
  | namedSet (id : String) (files fileSets : List String)
  | other

/-- Outcome of the decode loop: either a premature return carrying the Go
pair (files slice, error), or the fully decoded file-set graph. -/
inductive DecodeOutcome where
  | earlyReturn (files : Option (List String)) (err : Option String)
  | done (setToFiles setToSets : List (String × List String)) (rootSets : List String)

/-- The record-decoding loop of buildPkgFiles. proto.Unmarshal is factored
into the parseEvent argument. When the varint length prefix cannot be read
(zero bytes consumed) the source runs return nil, err where err still holds
the nil result of the preceding ReadFile check, then an unreachable break:
the loop exits with a nil files slice and a nil error. -/
def decodeLoop (parseEvent : List Nat → Except String BuildEvent) (aspectName : String)
    (logData : List Nat)
    (setToFiles setToSets : List (String × List String)) (rootSets : List String) :
    DecodeOutcome :=
  if hd : logData = [] then .done setToFiles setToSets rootSets
  else
    match decodeVarint logData with
    | (size, n) =>
      if hn : n = 0 then .earlyReturn none none
      else
        match parseEvent ((logData.drop n).take size) with
        | .error e => .earlyReturn none (some e)
        | .ok event =>
          match event with
          | .targetCompleted label aspect success groups =>
            if aspect ≠ aspectName then
              decodeLoop parseEvent aspectName ((logData.drop n).drop size)
                setToFiles setToSets rootSets
            else if ¬ success then
              .earlyReturn none (some (label ++ " did not build successfully"))
            else
              decodeLoop parseEvent aspectName ((logData.drop n).drop size)
                setToFiles setToSets
                (rootSets ++ (groups.filter (fun g => g.1 == outputGroupName)).flatMap
                  (fun g => g.2.filter (fun s => s != "")))
          | .namedSet id files fileSets =>
            decodeLoop parseEvent aspectName ((logData.drop n).drop size)
              (mapInsert setToFiles id files) (mapInsert setToSets id fileSets) rootSets
          | .other =>
            decodeLoop parseEvent aspectName ((logData.drop n).drop size)
              setToFiles setToSets rootSets
termination_by logData.length
decreasing_by
  all_goals
    have hlen : logData.length ≠ 0 := fun h => hd (List.eq_nil_of_length_eq_zero h)
    simp only [List.length_drop]
    omega

/-! ## File-set materialization (end of buildPkgFiles)

After the decode loop, a visited-once depth-first traversal from every root
set id accumulates the file names of every visited set; the files map is a
set, so the result only depends on which ids were visited. The keys are
then sorted lexicographically.
-/

def harvestFiles (setToFiles setToSets : List (String × List String))
    (rootSets : List String) : List String :=
  let visitedIds := dfsVisit setToSets rootSets []
  let files : Finset String :=
    visitedIds.foldl (fun acc s => acc ∪ (lookupOrNil setToFiles s).toFinset) ∅
  files.sort (· ≤ ·)

/-- buildPkgFiles from the point where the build-event log has been read:
decode the records, then materialize the file-set graph. Returns the Go
(files, error) pair; a premature loop exit propagates its pair unchanged. -/
def buildPkgFiles (parseEvent : List Nat → Except String BuildEvent)
    (aspectName : String) (logData : List Nat) :
    Option (List String) × Option String :=
  match decodeLoop parseEvent aspectName logData [] [] [] with
  | .earlyReturn files err => (files, err)
  | .done setToFiles setToSets rootSets =>
    (some (harvestFiles setToFiles setToSets rootSets), none)

/-! ## Pattern classification (stdin-protocol driver, parsePatterns) -/

def isStdlibPattern (pattern : String) : Bool :=
  strStartsWith pattern "@io_bazel_rules_go//:stdlib%"

/-- What one pattern contributes: a value for the file-containment list, a
value for the ordinary-pattern list, a value for the stdlib-pattern list, or
nothing (the ignored legacy query word). -/
inductive PatAction where
  | fileQuery (value : String)
  | restPattern (value : String)
  | stdlibPattern (value : String)
  | skip
deriving Repr, DecidableEq

/-- strings.Index for the first equals sign, and the two slices around it.
The equals sign is ASCII, so the byte index used by the Go code and the
character index used here cut the string at the same place. -/
def firstEqSplit (pattern : String) : Option (String × String) :=
  match pattern.toList.findIdx? (· == '=') with
  | none => none
  | some i => some (String.mk (pattern.toList.take i), String.mk (pattern.toList.drop (i + 1)))

/-- The for-range loop over the runes of the query word: stops at the first
rune outside a-z (classifying the pattern), reaching the end means panic. -/
def hasNonLowercase : List Char → Bool
  | [] => false
  | c :: cs => if c < 'a' ∨ 'z' < c then true else hasNonLowercase cs

/-- The body of the extractQueries loop for a single pattern. -/
def classifyPattern (pattern : String) : Except String PatAction :=
  match firstEqSplit pattern with
  | none =>
    if isStdlibPattern pattern then .ok (.stdlibPattern pattern)
    else .ok (.restPattern pattern)
  | some (query, value) =>
    if query = "file" then .ok (.fileQuery value)
    else if query = "pattern" then .ok (.restPattern value)
    else if query = "iamashamedtousethedisabledqueryname" then .ok .skip
    else if query = "" then
      if isStdlibPattern pattern then .ok (.stdlibPattern pattern)
      else .ok (.restPattern pattern)
    else if hasNonLowercase query.toList then
      if isStdlibPattern pattern then .ok (.stdlibPattern pattern)
      else .ok (.restPattern pattern)
    else
      .error ("invalid query type \"" ++ query ++ "\" in query pattern \"" ++ pattern ++ "\"")

/-- parsePatterns: one pass over the patterns appending to the three lists
(containFiles, restPatterns, stdlibPatterns); the panic on an unrecognized
reserved-looking query aborts the whole run, modelled as the error case. -/
def parsePatterns : List String → Except String (List String × List String × List String)
  | [] => .ok ([], [], [])
  | p :: rest =>
    match classifyPattern p with
    | .error e => .error e
    | .ok act =>
      match parsePatterns rest with
      | .error e => .error e
      | .ok (cf, rp, sp) =>
        match act with
        | .fileQuery v => .ok (v :: cf, rp, sp)
        | .restPattern v => .ok (cf, v :: rp, sp)
        | .stdlibPattern v => .ok (cf, rp, v :: sp)
        | .skip => .ok (cf, rp, sp)

/-! ## The claim's wording of pattern classification, for comparison.

Written from the specification sentences, independent of the loop above:
per-pattern classification, first fatal word wins, and the three output
lists are the order-preserving projections of the per-pattern actions.
-/

def specAction (pattern : String) : Except String PatAction :=
  let byStdlibTest (s : String) : PatAction :=
    if strStartsWith s "@io_bazel_rules_go//:stdlib%" then .stdlibPattern s else .restPattern s
  match firstEqSplit pattern with
  | none => .ok (byStdlibTest pattern)
  | some (word, value) =>
    if word = "file" then .ok (.fileQuery value)
    else if word = "pattern" then .ok (.restPattern value)
    else if word = "iamashamedtousethedisabledqueryname" then .ok .skip
    else if word = "" then .ok (byStdlibTest pattern)
    else if word.toList.all (fun c => 'a' ≤ c && c ≤ 'z') then
      .error ("invalid query type \"" ++ word ++ "\" in query pattern \"" ++ pattern ++ "\"")
    else .ok (byStdlibTest pattern)

def parsePatternsSpec (patterns : List String) :
    Except String (List String × List String × List String) :=
  match patterns.findSome?
      (fun p => match specAction p with | .error e => some e | .ok _ => none) with
  | some e => .error e
  | none =>
    .ok (patterns.filterMap
          (fun p => match specAction p with | .ok (.fileQuery v) => some v | _ => none),
        patterns.filterMap
          (fun p => match specAction p with | .ok (.restPattern v) => some v | _ => none),
        patterns.filterMap
          (fun p => match specAction p with | .ok (.stdlibPattern v) => some v | _ => none))

/-! ## package.go: the package descriptor builder

The metadata extractor (readGoMetadata) lives outside this embedding: each
source file comes paired with the metadata the extractor produced for it
(matched flag, declared package name, import paths). Writing the JSON file
is an effect and is dropped; the built descriptor is returned instead.
-/

structure GoMetadata where
  matched : Bool := false
  pkg : String := ""
  imports : List String := []
deriving Repr, DecidableEq

structure Archive where
  label : String := ""
  importPath : String := ""
  importMap : String := ""
  file : String := ""
deriving Repr, DecidableEq

def stdlibPkgId (importPath : String) : String :=
  "@io_bazel_rules_go//:stdlib%" ++ importPath

def testfilterFromString (s : String) : Except String (GoMetadata → Bool) :=
  if s = "off" then .ok (fun _ => true)
  else if s = "only" then .ok (fun f => strEndsWith f.pkg "_test")
  else if s = "exclude" then .ok (fun f => ! strEndsWith f.pkg "_test")
  else .error ("Invalid test filter " ++ s)

def importPathToLabel (archives : List Archive) : List (String × String) :=
  archives.foldl (fun m arc => mapInsert m arc.importPath arc.label) []

/-- The ok/not-ok branch on the dependency table inside the goSrcs loop. -/
def resolveImportId (table : List (String × String)) (imp : String) : String :=
  match table.lookup imp with
  | some label => label
  | none => stdlibPkgId imp

/-- The inner loop over one file's imports, writing into the Imports map. -/
def insertImports (table : List (String × String)) (imps : List String)
    (m : List (String × String)) : List (String × String) :=
  imps.foldl (fun m₂ imp => mapInsert m₂ imp (resolveImportId table imp)) m

def buildPackage (id importPath importMap pkgFilePath outPath : String)
    (goSrcs otherSrcs origSrcs : List (String × GoMetadata))
    (archives : List Archive) (testfilterName : String) : Except String Package :=
  if id = "" then .error "-id not set"
  else if importPath = "" then .error "-importpath not set"
  else if importMap = "" then .error "-importmap not set"
  else if outPath = "" then .error "-o not set"
  else
    match testfilterFromString testfilterName with
    | .error e => .error e
    | .ok testfilter =>
      let table := importPathToLabel archives
      let goFiles := (origSrcs.filter (fun sm => sm.2.matched && testfilter sm.2)).map Prod.fst
      let otherFiles := (otherSrcs.filter (fun sm => sm.2.matched)).map Prod.fst
      let kept := goSrcs.filter (fun sm => sm.2.matched && testfilter sm.2)
      let name := kept.foldl (fun nm sm => if nm = "" then sm.2.pkg else nm) ""
      let importsMap := kept.foldl (fun m sm => insertImports table sm.2.imports m) []
      .ok { ID := id
            Name := if name = "" then "empty" else name
            PkgPath := importMap
            ExportFile := pkgFilePath
            GoFiles := goFiles
            CompiledGoFiles := kept.map Prod.fst
            OtherFiles := otherFiles
            Imports := importsMap }

/-! # Claim theorems -/

/-- C3: the aspect name synthesized by buildPkgFiles is a function of
exactly the facet set (needDeps, needExport, needTest): the eight facet
combinations yield eight distinct fixed identifier strings (injectivity plus
the eight literal values, in which the deps token precedes the export token
precedes the test token). The name depends only on the three booleans, never
on the order in which callers computed them, so order-stability is inherent
in the embedding. -/
theorem synthAspectName_eight_distinct :
    (∀ d e t d₂ e₂ t₂, synthAspectName d e t = synthAspectName d₂ e₂ t₂ →
        d = d₂ ∧ e = e₂ ∧ t = t₂) ∧
    synthAspectName false false false
      = "@io_bazel_rules_go//go/tools/gopackagesdriver:aspect.bzl%gopackagesdriver_aspect" ∧
    synthAspectName false false true
      = "@io_bazel_rules_go//go/tools/gopackagesdriver:aspect.bzl%gopackagesdriver_test_aspect" ∧
    synthAspectName false true false
      = "@io_bazel_rules_go//go/tools/gopackagesdriver:aspect.bzl%gopackagesdriver_export_aspect" ∧
    synthAspectName false true true
      = "@io_bazel_rules_go//go/tools/gopackagesdriver:aspect.bzl%gopackagesdriver_export_test_aspect" ∧
    synthAspectName true false false
      = "@io_bazel_rules_go//go/tools/gopackagesdriver:aspect.bzl%gopackagesdriver_deps_aspect" ∧
    synthAspectName true false true
      = "@io_bazel_rules_go//go/tools/gopackagesdriver:aspect.bzl%gopackagesdriver_deps_test_aspect" ∧
    synthAspectName true true false
      = "@io_bazel_rules_go//go/tools/gopackagesdriver:aspect.bzl%gopackagesdriver_deps_export_aspect" ∧
    synthAspectName true true true
      = "@io_bazel_rules_go//go/tools/gopackagesdriver:aspect.bzl%gopackagesdriver_deps_export_test_aspect" := by
  refine ⟨?_, rfl, rfl, rfl, rfl, rfl, rfl, rfl, rfl⟩
  decide

/-- C3 witness: the injectivity part applied at a concrete facet set. -/
theorem synthAspectName_eight_distinct_witness :
    true = true ∧ false = false ∧ false = false :=
  synthAspectName_eight_distinct.1 true false false true false false rfl

/-- C2: on the fallback path, when packages.Load fails the loader error is
swallowed: listFallback returns the empty driverResponse together with a nil
error, reporting success-but-empty. -/
theorem listFallback_swallows_load_error :
    ∀ e : String, listFallback (.failure e) = ({ Roots := [], Packages := [] }, none) :=
  fun _ => rfl

/-- C5: the path-rewrite loop in list() iterates over a snapshot of the
loaded package slice while appending each element back onto it, so the
response's Packages list is the original list twice over: it equals
pkgs ++ pkgs, and when the loaded packages are pairwise distinct pointers,
every loaded package occurs at exactly two indices of the final list. -/
theorem list_appends_packages_twice {α : Type} [DecidableEq α] :
    (∀ pkgs : List α, listPackagesAfterRewrite pkgs = pkgs ++ pkgs) ∧
    (∀ (pkgs : List α) (p : α), pkgs.Nodup → p ∈ pkgs →
      (listPackagesAfterRewrite pkgs).count p = 2) := by
  have hall : ∀ pkgs : List α, listPackagesAfterRewrite pkgs = pkgs ++ pkgs := by
    intro pkgs
    simpa [listPackagesAfterRewrite] using listRewriteLoop_eq_append pkgs pkgs
  refine ⟨hall, ?_⟩
  intro pkgs p hnd hp
  rw [hall, List.count_append]
  have h1 : pkgs.count p = 1 := List.count_eq_one_of_mem hnd hp
  omega

/-- C5 witness: two distinct loaded packages, each counted twice in the
final list. -/
theorem list_appends_packages_twice_witness :
    listPackagesAfterRewrite ["p", "q"] = ["p", "q"] ++ ["p", "q"] ∧
    (listPackagesAfterRewrite ["p", "q"]).count "p" = 2 :=
  ⟨list_appends_packages_twice.1 ["p", "q"],
   list_appends_packages_twice.2 ["p", "q"] "p" (by decide) (by decide)⟩

/-- C7: absPkgPaths rewrites every path in GoFiles, CompiledGoFiles,
OtherFiles and a non-empty ExportFile through absPathIfNecessary, and that
rewrite sends a path starting with the external marker to a join under the
execution root, keeps a path that is already absolute unchanged, and joins
every other relative path under the workspace root. -/
theorem absPkgPaths_canonicalization :
    ∀ (workspaceDir execDir : String) (pkg : Package),
      (absPkgPaths pkg workspaceDir execDir).GoFiles
          = pkg.GoFiles.map (absPathIfNecessary workspaceDir execDir) ∧
      (absPkgPaths pkg workspaceDir execDir).CompiledGoFiles
          = pkg.CompiledGoFiles.map (absPathIfNecessary workspaceDir execDir) ∧
      (absPkgPaths pkg workspaceDir execDir).OtherFiles
          = pkg.OtherFiles.map (absPathIfNecessary workspaceDir execDir) ∧
      (pkg.ExportFile ≠ "" →
        (absPkgPaths pkg workspaceDir execDir).ExportFile
          = absPathIfNecessary workspaceDir execDir pkg.ExportFile) ∧
      (∀ path : String,
        (strStartsWith path "external/" = true →
          absPathIfNecessary workspaceDir execDir path = joinPath execDir path) ∧
        (strStartsWith path "external/" = false → strStartsWith path "/" = true →
          absPathIfNecessary workspaceDir execDir path = path) ∧
        (strStartsWith path "external/" = false → strStartsWith path "/" = false →
          absPathIfNecessary workspaceDir execDir path = joinPath workspaceDir path)) := by
  intro w e pkg
  refine ⟨rfl, rfl, rfl, ?_, ?_⟩
  · intro h
    simp [absPkgPaths, h]
  · intro path
    refine ⟨?_, ?_, ?_⟩
    · intro h1
      simp [absPathIfNecessary, h1]
    · intro h1 h2
      simp [absPathIfNecessary, h1, h2]
    · intro h1 h2
      simp [absPathIfNecessary, h1, h2]

/-- C7 witness: the three path shapes at concrete roots, plus the
export-file field of a concrete package. -/
theorem absPkgPaths_canonicalization_witness :
    absPathIfNecessary "/ws" "/exec" "external/x/a.go" = joinPath "/exec" "external/x/a.go" ∧
    absPathIfNecessary "/ws" "/exec" "/abs/a.go" = "/abs/a.go" ∧
    absPathIfNecessary "/ws" "/exec" "rel/a.go" = joinPath "/ws" "rel/a.go" ∧
    (absPkgPaths { ExportFile := "b.go" } "/ws" "/exec").ExportFile
      = absPathIfNecessary "/ws" "/exec" "b.go" := by
  refine ⟨?_, ?_, ?_, ?_⟩
  · exact ((absPkgPaths_canonicalization "/ws" "/exec" {}).2.2.2.2 "external/x/a.go").1 (by decide)
  · exact ((absPkgPaths_canonicalization "/ws" "/exec" {}).2.2.2.2 "/abs/a.go").2.1 (by decide) (by decide)
  · exact ((absPkgPaths_canonicalization "/ws" "/exec" {}).2.2.2.2 "rel/a.go").2.2 (by decide) (by decide)
  · exact (absPkgPaths_canonicalization "/ws" "/exec" { ExportFile := "b.go" }).2.2.2.1 (by decide)

/-- C1: evaluation of the decoder at a build-event log whose varint length
prefix cannot be read: the single byte 0x80 opens a varint that the buffer
truncates, so proto.DecodeVarint consumes zero bytes, and buildPkgFiles
returns a nil files slice together with a NIL error (the err it returns is
the already-nil ReadFile error), not the non-nil DecodeError the
specification requires. -/
theorem buildPkgFiles_truncated_varint_nil_error :
    buildPkgFiles (fun _ => .ok .other) "a" [128] = (none, none) := by
  have hv : decodeVarint [128] = (0, 0) := rfl
  rw [buildPkgFiles, decodeLoop.eq_def]
  simp [hv]

theorem splitAtNewline_none_of_not_mem {tail : List Char} (h : '\n' ∉ tail) :
    splitAtNewline tail = none := by
  induction tail with
  | nil => rfl
  | cons c cs ih =>
    simp only [List.mem_cons] at h
    push_neg at h
    have hc : c ≠ '\n' := fun hh => h.1 hh.symm
    simp only [splitAtNewline, if_neg hc, ih h.2]

theorem splitAtNewline_append {line rest : List Char} (h : '\n' ∉ line) :
    splitAtNewline (line ++ '\n' :: rest) = some (line, rest) := by
  induction line with
  | nil => simp [splitAtNewline]
  | cons c cs ih =>
    simp only [List.mem_cons] at h
    push_neg at h
    have hc : c ≠ '\n' := fun hh => h.1 hh.symm
    simp only [List.cons_append, splitAtNewline, if_neg hc]
    rw [show cs.append ('\n' :: rest) = cs ++ '\n' :: rest from rfl, ih h.2]

theorem parseQueryOutput_of_split_none {data : List Char}
    (h : splitAtNewline data = none) : parseQueryOutput data = [] := by
  rw [parseQueryOutput.eq_def]
  split
  · rfl
  · next line rest heq => rw [heq] at h; cases h

theorem parseQueryOutput_of_split_some {data line rest : List Char}
    (h : splitAtNewline data = some (line, rest)) :
    parseQueryOutput data = stripCR line :: parseQueryOutput rest := by
  rw [parseQueryOutput.eq_def]
  split
  · next heq => rw [heq] at h; cases h
  · next line₂ rest₂ heq =>
    rw [heq] at h
    injection h with h
    injection h with h1 h2
    rw [h1, h2]

/-- C10: queryTargets parses the query subprocess standard output into one
target label per newline-terminated line, stripping a single trailing
carriage return from each line; a final fragment not terminated by a
newline is dropped entirely, and an empty line yields an empty target label
(the empty line may appear among the lines, see the witness). -/
theorem queryTargets_line_parsing :
    ∀ (lines : List (List Char)) (tail : List Char),
      (∀ l ∈ lines, '\n' ∉ l) → '\n' ∉ tail →
      parseQueryOutput ((lines.map (fun l => l ++ ['\n'])).flatten ++ tail)
        = lines.map stripCR := by
  intro lines tail hl ht
  induction lines with
  | nil =>
    simp only [List.map_nil, List.flatten_nil, List.nil_append]
    exact parseQueryOutput_of_split_none (splitAtNewline_none_of_not_mem ht)
  | cons l ls ih =>
    have hdata :
        ((l :: ls).map (fun l => l ++ ['\n'])).flatten ++ tail
          = l ++ '\n' :: ((ls.map (fun l => l ++ ['\n'])).flatten ++ tail) := by
      simp
    rw [hdata,
      parseQueryOutput_of_split_some (splitAtNewline_append (hl l (by simp))),
      ih (fun x hx => hl x (by simp [hx]))]
    simp

/-- C10 witness: a CRLF line, an empty line, a line ending in two carriage
returns (only one is stripped), and an unterminated final fragment that is
dropped. -/
theorem queryTargets_line_parsing_witness :
    parseQueryOutput
        ((([['a', '\r'], [], ['b', '\r', '\r']].map (fun l => l ++ ['\n'])).flatten) ++ ['x'])
      = [['a'], [], ['b', '\r']] := by
  have h := queryTargets_line_parsing [['a', '\r'], [], ['b', '\r', '\r']] ['x']
    (by decide) (by decide)
  rw [h]
  decide

theorem hasNonLowercase_eq (cs : List Char) :
    hasNonLowercase cs = ! cs.all (fun c => 'a' ≤ c && c ≤ 'z') := by
  induction cs with
  | nil => rfl
  | cons c cs ih =>
    by_cases hc : c < 'a' ∨ 'z' < c
    · have h1 : (decide ('a' ≤ c) && decide (c ≤ 'z')) = false := by
        rcases hc with h | h
        · have : ¬ ('a' ≤ c) := not_le.mpr h
          simp [this]
        · have : ¬ (c ≤ 'z') := not_le.mpr h
          simp [this]
      simp [hasNonLowercase, hc, h1]
    · push_neg at hc
      have h1 : (decide ('a' ≤ c) && decide (c ≤ 'z')) = true := by
        simp [hc.1, hc.2]
      simp [hasNonLowercase, hc, h1, ih]

theorem classifyPattern_eq_specAction (p : String) : classifyPattern p = specAction p := by
  unfold classifyPattern specAction
  cases h : firstEqSplit p with
  | none => simp [isStdlibPattern, apply_ite]
  | some qv =>
    obtain ⟨q, v⟩ := qv
    by_cases h1 : q = "file"
    · simp [h1]
    · by_cases h2 : q = "pattern"
      · simp [h1, h2]
      · by_cases h3 : q = "iamashamedtousethedisabledqueryname"
        · simp [h1, h2, h3]
        · by_cases h4 : q = ""
          · simp [h1, h2, h3, h4, isStdlibPattern, apply_ite]
          · simp only [if_neg h1, if_neg h2, if_neg h3, if_neg h4]
            rw [hasNonLowercase_eq]
            cases hall : q.toList.all (fun c => 'a' ≤ c && c ≤ 'z') <;>
              simp [isStdlibPattern, apply_ite]

/-- C4: parsePatterns agrees, on every input list, with the classification
the specification describes: file=X contributes X only to the
file-containment list, pattern=X contributes X to the ordinary-pattern list,
the legacy sentinel word is silently ignored, an empty query word sends the
whole original pattern through the stdlib prefix test, any other
word=value whose word is entirely lowercase a-z is a fatal error (the first
such pattern wins), a word with any other character classifies the whole
pattern as ordinary or stdlib, and the three output lists are the
order-preserving projections of the per-pattern classifications. -/
theorem parsePatterns_matches_spec :
    ∀ patterns, parsePatterns patterns = parsePatternsSpec patterns := by
  intro patterns
  induction patterns with
  | nil => rfl
  | cons p rest ih =>
    simp only [parsePatterns, classifyPattern_eq_specAction]
    cases hsa : specAction p with
    | error e =>
      simp [parsePatternsSpec, List.findSome?_cons, hsa]
    | ok act =>
      rw [ih]
      cases hfind : List.findSome?
          (fun p => match specAction p with | .error e => some e | .ok _ => none) rest with
      | some e =>
        have hspec : parsePatternsSpec rest = .error e := by
          simp [parsePatternsSpec, hfind]
        rw [hspec]
        simp [parsePatternsSpec, List.findSome?_cons, hsa, hfind]
      | none =>
        have hspec : parsePatternsSpec rest
            = .ok (rest.filterMap
                (fun p => match specAction p with | .ok (.fileQuery v) => some v | _ => none),
              rest.filterMap
                (fun p => match specAction p with | .ok (.restPattern v) => some v | _ => none),
              rest.filterMap
                (fun p => match specAction p with | .ok (.stdlibPattern v) => some v | _ => none)) := by
          simp [parsePatternsSpec, hfind]
        rw [hspec]
        simp only [parsePatternsSpec, List.findSome?_cons, hsa, hfind]
        cases act <;> simp [List.filterMap_cons, hsa]

/-! ## Correctness of the file-set traversal -/

/-- Set identifiers reachable from the root sets through the child-set
edges recorded in setToSets. -/
inductive ReachesSet (adj : List (String × List String)) (roots : List String) : String → Prop
  | root {s : String} : s ∈ roots → ReachesSet adj roots s
  | child {s c : String} : ReachesSet adj roots s → c ∈ lookupOrNil adj s →
      ReachesSet adj roots c

theorem dfsVisit_nil (adj : List (String × List String)) (visited : List String) :
    dfsVisit adj [] visited = visited := by
  rw [dfsVisit.eq_def]

theorem dfsVisit_cons_mem {p : String} {visited : List String}
    (adj : List (String × List String)) (stack₂ : List String) (h : p ∈ visited) :
    dfsVisit adj (p :: stack₂) visited = dfsVisit adj stack₂ visited := by
  rw [dfsVisit.eq_def]
  simp [h]

theorem dfsVisit_cons_not_mem {p : String} {visited : List String}
    (adj : List (String × List String)) (stack₂ : List String) (h : p ∉ visited) :
    dfsVisit adj (p :: stack₂) visited
      = dfsVisit adj (lookupOrNil adj p ++ stack₂) (p :: visited) := by
  rw [dfsVisit.eq_def]
  simp [h]

theorem dfsVisit_mono (adj : List (String × List String)) (stack visited : List String) :
    ∀ x ∈ visited, x ∈ dfsVisit adj stack visited := by
  induction stack, visited using dfsVisit.induct adj with
  | case1 visited =>
    intro x hx
    rw [dfsVisit_nil]
    exact hx
  | case2 visited p stack₂ hp ih =>
    intro x hx
    rw [dfsVisit_cons_mem adj stack₂ hp]
    exact ih x hx
  | case3 visited p stack₂ hp ih =>
    intro x hx
    rw [dfsVisit_cons_not_mem adj stack₂ hp]
    exact ih x (List.mem_cons_of_mem p hx)

theorem mem_dfsVisit_of_mem_stack (adj : List (String × List String))
    (stack visited : List String) : ∀ x ∈ stack, x ∈ dfsVisit adj stack visited := by
  induction stack, visited using dfsVisit.induct adj with
  | case1 visited =>
    intro x hx
    cases hx
  | case2 visited p stack₂ hp ih =>
    intro x hx
    rw [dfsVisit_cons_mem adj stack₂ hp]
    rcases List.mem_cons.mp hx with rfl | hx2
    · exact dfsVisit_mono adj stack₂ visited x hp
    · exact ih x hx2
  | case3 visited p stack₂ hp ih =>
    intro x hx
    rw [dfsVisit_cons_not_mem adj stack₂ hp]
    rcases List.mem_cons.mp hx with rfl | hx2
    · exact dfsVisit_mono adj _ _ x (List.mem_cons_self x visited)
    · exact ih x (List.mem_append_right _ hx2)

theorem dfsVisit_sound (adj : List (String × List String)) (R : String → Prop)
    (hstep : ∀ s c, R s → c ∈ lookupOrNil adj s → R c) (stack visited : List String) :
    (∀ y ∈ stack, R y) → (∀ y ∈ visited, R y) →
      ∀ x ∈ dfsVisit adj stack visited, R x := by
  induction stack, visited using dfsVisit.induct adj with
  | case1 visited =>
    intro _ hv x hx
    rw [dfsVisit_nil] at hx
    exact hv x hx
  | case2 visited p stack₂ hp ih =>
    intro hs hv x hx
    rw [dfsVisit_cons_mem adj stack₂ hp] at hx
    exact ih (fun y hy => hs y (List.mem_cons_of_mem p hy)) hv x hx
  | case3 visited p stack₂ hp ih =>
    intro hs hv x hx
    rw [dfsVisit_cons_not_mem adj stack₂ hp] at hx
    refine ih ?_ ?_ x hx
    · intro y hy
      rcases List.mem_append.mp hy with hy1 | hy2
      · exact hstep p y (hs p (List.mem_cons_self p stack₂)) hy1
      · exact hs y (List.mem_cons_of_mem p hy2)
    · intro y hy
      rcases List.mem_cons.mp hy with rfl | hy2
      · exact hs y (List.mem_cons_self y stack₂)
      · exact hv y hy2

theorem dfsVisit_closed (adj : List (String × List String)) (stack visited : List String) :
    (∀ v ∈ visited, ∀ c ∈ lookupOrNil adj v, c ∈ visited ∨ c ∈ stack) →
      ∀ v ∈ dfsVisit adj stack visited, ∀ c ∈ lookupOrNil adj v,
        c ∈ dfsVisit adj stack visited := by
  induction stack, visited using dfsVisit.induct adj with
  | case1 visited =>
    intro hinv v hv c hc
    rw [dfsVisit_nil] at hv ⊢
    rcases hinv v hv c hc with h | h
    · exact h
    · cases h
  | case2 visited p stack₂ hp ih =>
    intro hinv v hv c hc
    rw [dfsVisit_cons_mem adj stack₂ hp] at hv ⊢
    refine ih ?_ v hv c hc
    intro v₂ hv₂ c₂ hc₂
    rcases hinv v₂ hv₂ c₂ hc₂ with h | h
    · exact Or.inl h
    · rcases List.mem_cons.mp h with rfl | h2
      · exact Or.inl hp
      · exact Or.inr h2
  | case3 visited p stack₂ hp ih =>
    intro hinv v hv c hc
    rw [dfsVisit_cons_not_mem adj stack₂ hp] at hv ⊢
    refine ih ?_ v hv c hc
    intro v₂ hv₂ c₂ hc₂
    rcases List.mem_cons.mp hv₂ with rfl | hv₃
    · exact Or.inr (List.mem_append_left _ hc₂)
    · rcases hinv v₂ hv₃ c₂ hc₂ with h | h
      · exact Or.inl (List.mem_cons_of_mem p h)
      · rcases List.mem_cons.mp h with rfl | h2
        · exact Or.inl (List.mem_cons_self c₂ visited)
        · exact Or.inr (List.mem_append_right _ h2)

theorem mem_dfsVisit_iff_reaches (adj : List (String × List String))
    (roots : List String) (x : String) :
    x ∈ dfsVisit adj roots [] ↔ ReachesSet adj roots x := by
  constructor
  · intro hx
    exact dfsVisit_sound adj (ReachesSet adj roots)
      (fun s c hs hc => ReachesSet.child hs hc) roots []
      (fun y hy => ReachesSet.root hy)
      (fun y hy => absurd hy (List.not_mem_nil y)) x hx
  · intro hr
    induction hr with
    | root hs => exact mem_dfsVisit_of_mem_stack adj roots [] _ hs
    | child hs hc ih =>
      exact dfsVisit_closed adj roots []
        (fun v hv => absurd hv (List.not_mem_nil v)) _ ih _ hc

theorem mem_foldl_union (setToFiles : List (String × List String)) (ids : List String) :
    ∀ (init : Finset String) (x : String),
      (x ∈ ids.foldl (fun acc s => acc ∪ (lookupOrNil setToFiles s).toFinset) init) ↔
        x ∈ init ∨ ∃ s ∈ ids, x ∈ lookupOrNil setToFiles s := by
  induction ids with
  | nil =>
    intro init x
    simp
  | cons i ids ih =>
    intro init x
    simp only [List.foldl_cons]
    rw [ih]
    simp only [Finset.mem_union, List.mem_toFinset, List.mem_cons]
    constructor
    · rintro ((h | h) | ⟨s, hs, hx⟩)
      · exact Or.inl h
      · exact Or.inr ⟨i, Or.inl rfl, h⟩
      · exact Or.inr ⟨s, Or.inr hs, hx⟩
    · rintro (h | ⟨s, (rfl | hs), hx⟩)
      · exact Or.inl (Or.inl h)
      · exact Or.inl (Or.inr hx)
      · exact Or.inr ⟨s, hs, hx⟩

/-- C6: for every file-set graph, including graphs with self-referential or
mutually-referential set identifiers and files reachable from several root
sets, the traversal at the end of buildPkgFiles terminates (it is a total
function of the graph), and the returned list is sorted, duplicate-free,
and contains a file name exactly when some set reachable from the root set
identifiers lists it, so every reachable file appears exactly once. -/
theorem harvestFiles_reachable_once_sorted :
    ∀ (setToFiles setToSets : List (String × List String)) (rootSets : List String),
      (harvestFiles setToFiles setToSets rootSets).Sorted (· ≤ ·) ∧
      (harvestFiles setToFiles setToSets rootSets).Nodup ∧
      ∀ f, f ∈ harvestFiles setToFiles setToSets rootSets ↔
        ∃ s, ReachesSet setToSets rootSets s ∧ f ∈ lookupOrNil setToFiles s := by
  intro stf sts roots
  refine ⟨Finset.sort_sorted _ _, Finset.sort_nodup _ _, ?_⟩
  intro f
  simp only [harvestFiles, Finset.mem_sort]
  rw [mem_foldl_union]
  simp only [Finset.not_mem_empty, false_or]
  constructor
  · rintro ⟨s, hs, hf⟩
    exact ⟨s, (mem_dfsVisit_iff_reaches sts roots s).mp hs, hf⟩
  · rintro ⟨s, hs, hf⟩
    exact ⟨s, (mem_dfsVisit_iff_reaches sts roots s).mpr hs, hf⟩

/-! ## Lookup lemmas for the Imports map -/

theorem lookup_filter_ne {β : Type} (m : List (String × β)) (k x : String) (hxk : x ≠ k) :
    (m.filter (fun kv => kv.1 != k)).lookup x = m.lookup x := by
  induction m with
  | nil => rfl
  | cons kv m ih =>
    by_cases h : kv.1 = k
    · have hbx : (x == kv.1) = false := by
        simp only [beq_eq_false_iff_ne, ne_eq, h]
        exact hxk
      simp only [List.filter_cons, show (kv.1 != k) = false by simp [h], Bool.false_eq_true,
        if_false, ih, List.lookup, hbx]
    · simp only [List.filter_cons, show (kv.1 != k) = true by simp [h], if_true, List.lookup]
      cases hbx : x == kv.1 <;> simp [hbx, ih]

theorem lookup_mapInsert {β : Type} (m : List (String × β)) (k x : String) (v : β) :
    (mapInsert m k v).lookup x = if x = k then some v else m.lookup x := by
  by_cases hxk : x = k
  · subst hxk
    simp [mapInsert, List.lookup]
  · rw [if_neg hxk]
    have hkx : (x == k) = false := by
      simp only [beq_eq_false_iff_ne, ne_eq]
      exact hxk
    simp only [mapInsert, List.lookup, hkx]
    exact lookup_filter_ne m k x hxk

theorem lookup_insertImports (table : List (String × String)) (imps : List String)
    (m : List (String × String)) (x : String) :
    (insertImports table imps m).lookup x
      = if x ∈ imps then some (resolveImportId table x) else m.lookup x := by
  induction imps generalizing m with
  | nil => simp [insertImports]
  | cons imp imps ih =>
    simp only [insertImports, List.foldl_cons]
    rw [show List.foldl (fun m₂ imp => mapInsert m₂ imp (resolveImportId table imp))
          (mapInsert m imp (resolveImportId table imp)) imps
        = insertImports table imps (mapInsert m imp (resolveImportId table imp)) from rfl]
    rw [ih]
    by_cases hx : x ∈ imps
    · rw [if_pos hx, if_pos (List.mem_cons_of_mem imp hx)]
    · rw [if_neg hx, lookup_mapInsert]
      by_cases hxi : x = imp
      · subst hxi
        rw [if_pos rfl, if_pos (List.mem_cons_self x imps)]
      · rw [if_neg hxi, if_neg (by
          intro hmem
          rcases List.mem_cons.mp hmem with h | h
          · exact hxi h
          · exact hx h)]

theorem lookup_importsFold (table : List (String × String))
    (kept : List (String × GoMetadata)) (m : List (String × String)) (x : String) :
    (kept.foldl (fun m₂ sm => insertImports table sm.2.imports m₂) m).lookup x
      = if ∃ sm ∈ kept, x ∈ sm.2.imports then some (resolveImportId table x)
        else m.lookup x := by
  induction kept generalizing m with
  | nil => simp
  | cons sm kept ih =>
    simp only [List.foldl_cons]
    rw [ih, lookup_insertImports]
    by_cases h1 : ∃ sm₂ ∈ kept, x ∈ sm₂.2.imports
    · have h2 : ∃ sm₂ ∈ sm :: kept, x ∈ sm₂.2.imports := by
        obtain ⟨s₂, hs, hx⟩ := h1
        exact ⟨s₂, List.mem_cons_of_mem sm hs, hx⟩
      rw [if_pos h1, if_pos h2]
    · rw [if_neg h1]
      by_cases h2 : x ∈ sm.2.imports
      · have h3 : ∃ sm₂ ∈ sm :: kept, x ∈ sm₂.2.imports :=
          ⟨sm, List.mem_cons_self sm kept, h2⟩
        rw [if_pos h2, if_pos h3]
      · have h3 : ¬ ∃ sm₂ ∈ sm :: kept, x ∈ sm₂.2.imports := by
          rintro ⟨s₂, hs, hx⟩
          rcases List.mem_cons.mp hs with rfl | hs₂
          · exact h2 hx
          · exact h1 ⟨s₂, hs₂, hx⟩
        rw [if_neg h2, if_neg h3]

/-! ## Characterization of a successful buildPackage run -/

theorem buildPackage_flags_ne {id ip im pf op : String}
    {goSrcs otherSrcs origSrcs : List (String × GoMetadata)}
    {archives : List Archive} {tfName : String} {pkg : Package}
    (h2 : buildPackage id ip im pf op goSrcs otherSrcs origSrcs archives tfName
        = Except.ok pkg) :
    ¬ id = "" ∧ ¬ ip = "" ∧ ¬ im = "" ∧ ¬ op = "" := by
  unfold buildPackage at h2
  split_ifs at h2 with ha hb hc hd
  exact ⟨ha, hb, hc, hd⟩

theorem buildPackage_ok (id ip im pf op : String)
    (goSrcs otherSrcs origSrcs : List (String × GoMetadata))
    (archives : List Archive) (tfName : String) (tf : GoMetadata → Bool)
    (h1 : testfilterFromString tfName = Except.ok tf)
    (hid : ¬ id = "") (hip : ¬ ip = "") (him : ¬ im = "") (hop : ¬ op = "") :
    buildPackage id ip im pf op goSrcs otherSrcs origSrcs archives tfName
      = Except.ok
          { ID := id
            Name :=
              (if (goSrcs.filter (fun sm => sm.2.matched && tf sm.2)).foldl
                    (fun nm sm => if nm = "" then sm.2.pkg else nm) "" = ""
               then "empty"
               else (goSrcs.filter (fun sm => sm.2.matched && tf sm.2)).foldl
                    (fun nm sm => if nm = "" then sm.2.pkg else nm) "")
            PkgPath := im
            ExportFile := pf
            GoFiles := (origSrcs.filter (fun sm => sm.2.matched && tf sm.2)).map Prod.fst
            CompiledGoFiles := (goSrcs.filter (fun sm => sm.2.matched && tf sm.2)).map Prod.fst
            OtherFiles := (otherSrcs.filter (fun sm => sm.2.matched)).map Prod.fst
            Imports := (goSrcs.filter (fun sm => sm.2.matched && tf sm.2)).foldl
                (fun m sm => insertImports (importPathToLabel archives) sm.2.imports m) [] } := by
  unfold buildPackage
  rw [if_neg hid, if_neg hip, if_neg him, if_neg hop, h1]

/-- C8: a compiled (go_src) source survives into CompiledGoFiles exactly
when its metadata matched the build constraints and it passes the active
test filter; the filters are off (always), only (declared package name ends
in the test suffix), exclude (it does not); with filter only and compiled
sources a.go (package foo) and a_test.go (package foo_test), only a_test.go
survives and the unit's package name becomes foo_test; and when no compiled
source survives the name defaults to the sentinel empty. -/
theorem buildPackage_testfilter :
    (∀ id ip im pf op goSrcs otherSrcs origSrcs archives tfName tf pkg,
      testfilterFromString tfName = Except.ok tf →
      buildPackage id ip im pf op goSrcs otherSrcs origSrcs archives tfName = Except.ok pkg →
      pkg.CompiledGoFiles
        = (goSrcs.filter (fun sm => sm.2.matched && tf sm.2)).map Prod.fst ∧
      (goSrcs.filter (fun sm => sm.2.matched && tf sm.2) = [] → pkg.Name = "empty")) ∧
    (∀ m : GoMetadata,
      (∀ tf, testfilterFromString "off" = Except.ok tf → tf m = true) ∧
      (∀ tf, testfilterFromString "only" = Except.ok tf → tf m = strEndsWith m.pkg "_test") ∧
      (∀ tf, testfilterFromString "exclude" = Except.ok tf →
        tf m = ! strEndsWith m.pkg "_test")) ∧
    (buildPackage "id" "p" "p" "" "out"
        [("a.go", { matched := true, pkg := "foo" }),
         ("a_test.go", { matched := true, pkg := "foo_test" })] [] [] [] "only"
      = Except.ok
          { ID := "id", Name := "foo_test", PkgPath := "p", ExportFile := "",
            GoFiles := [], CompiledGoFiles := ["a_test.go"], OtherFiles := [],
            Imports := [] }) := by
  refine ⟨?_, ?_, ?_⟩
  · intro id ip im pf op goSrcs otherSrcs origSrcs archives tfName tf pkg h1 h2
    obtain ⟨hid, hip, him, hop⟩ := buildPackage_flags_ne h2
    rw [buildPackage_ok id ip im pf op goSrcs otherSrcs origSrcs archives tfName tf
      h1 hid hip him hop] at h2
    injection h2 with h2
    subst h2
    refine ⟨rfl, ?_⟩
    intro hkept
    simp [hkept]
  · intro m
    refine ⟨?_, ?_, ?_⟩ <;> intro tf htf <;> injection htf with h <;> rw [← h]
  · rfl

/-- C8 witness: an unmatched compiled source against the off filter is
dropped, and with nothing surviving the package name is the empty
sentinel. -/
theorem buildPackage_testfilter_witness :
    ({ ID := "i", Name := "empty", PkgPath := "m", ExportFile := "x" } : Package).CompiledGoFiles
        = (([("x.go", ({ matched := false, pkg := "p" } : GoMetadata))].filter
            (fun sm => sm.2.matched && (fun _ => true) sm.2)).map Prod.fst) ∧
    ({ ID := "i", Name := "empty", PkgPath := "m", ExportFile := "x" } : Package).Name
        = "empty" := by
  have h := buildPackage_testfilter.1 "i" "p" "m" "x" "o"
      [("x.go", { matched := false, pkg := "p" })] [] [] [] "off" (fun _ => true)
      { ID := "i", Name := "empty", PkgPath := "m", ExportFile := "x" } rfl rfl
  exact ⟨h.1, h.2 (by decide)⟩

/-- C9: for every import path declared by a compiled source that survived
matching and the test filter, the Imports map of the built descriptor binds
that path to the resolved dependency label when the path is in the -arc
dependency table, and otherwise to the synthesized standard-library
placeholder id, the stdlib marker followed by the import path. -/
theorem buildPackage_imports_resolution :
    ∀ id ip im pf op goSrcs otherSrcs origSrcs archives tfName tf pkg sm imp,
      testfilterFromString tfName = Except.ok tf →
      buildPackage id ip im pf op goSrcs otherSrcs origSrcs archives tfName = Except.ok pkg →
      sm ∈ goSrcs → sm.2.matched = true → tf sm.2 = true → imp ∈ sm.2.imports →
      (∀ label, (importPathToLabel archives).lookup imp = some label →
          pkg.Imports.lookup imp = some label) ∧
      ((importPathToLabel archives).lookup imp = none →
          pkg.Imports.lookup imp = some (stdlibPkgId imp)) := by
  intro id ip im pf op goSrcs otherSrcs origSrcs archives tfName tf pkg sm imp
    h1 h2 hsm hm htf himp
  obtain ⟨hid, hip, him, hop⟩ := buildPackage_flags_ne h2
  rw [buildPackage_ok id ip im pf op goSrcs otherSrcs origSrcs archives tfName tf
    h1 hid hip him hop] at h2
  injection h2 with h2
  subst h2
  have hkept : sm ∈ goSrcs.filter (fun sm => sm.2.matched && tf sm.2) :=
    List.mem_filter.mpr ⟨hsm, by simp [hm, htf]⟩
  have hex : ∃ sm₂ ∈ goSrcs.filter (fun sm => sm.2.matched && tf sm.2),
      imp ∈ sm₂.2.imports := ⟨sm, hkept, himp⟩
  have hlook :
      (Package.Imports
        { ID := id
          Name :=
            (if (goSrcs.filter (fun sm => sm.2.matched && tf sm.2)).foldl
                  (fun nm sm => if nm = "" then sm.2.pkg else nm) "" = ""
             then "empty"
             else (goSrcs.filter (fun sm => sm.2.matched && tf sm.2)).foldl
                  (fun nm sm => if nm = "" then sm.2.pkg else nm) "")
          PkgPath := im
          ExportFile := pf
          GoFiles := (origSrcs.filter (fun sm => sm.2.matched && tf sm.2)).map Prod.fst
          CompiledGoFiles := (goSrcs.filter (fun sm => sm.2.matched && tf sm.2)).map Prod.fst
          OtherFiles := (otherSrcs.filter (fun sm => sm.2.matched)).map Prod.fst
          Imports := (goSrcs.filter (fun sm => sm.2.matched && tf sm.2)).foldl
              (fun m sm => insertImports (importPathToLabel archives) sm.2.imports m) [] }).lookup imp
      = some (resolveImportId (importPathToLabel archives) imp) := by
    rw [show (Package.Imports _) = (goSrcs.filter (fun sm => sm.2.matched && tf sm.2)).foldl
        (fun m sm => insertImports (importPathToLabel archives) sm.2.imports m) [] from rfl]
    rw [lookup_importsFold, if_pos hex]
  constructor
  · intro label hl
    rw [hlook]
    unfold resolveImportId
    rw [hl]
  · intro hl
    rw [hlook]
    unfold resolveImportId
    rw [hl]

/-- C9 witness: one surviving compiled source importing fmt (resolved by the
-arc table) with the table built from one archive flag. -/
theorem buildPackage_imports_resolution_witness :
    ({ ID := "i", Name := "p", PkgPath := "m", ExportFile := "",
       GoFiles := [], CompiledGoFiles := ["a.go"], OtherFiles := [],
       Imports := [("os", "@io_bazel_rules_go//:stdlib%os"), ("fmt", "//lbl")] }
      : Package).Imports.lookup "fmt" = some "//lbl" := by
  have h := buildPackage_imports_resolution "i" "p" "m" "" "o"
      [("a.go", { matched := true, pkg := "p", imports := ["fmt", "os"] })] [] []
      [{ label := "//lbl", importPath := "fmt", importMap := "m", file := "f" }] "off"
      (fun _ => true)
      { ID := "i", Name := "p", PkgPath := "m", ExportFile := "",
        GoFiles := [], CompiledGoFiles := ["a.go"], OtherFiles := [],
        Imports := [("os", "@io_bazel_rules_go//:stdlib%os"), ("fmt", "//lbl")] }
      ("a.go", { matched := true, pkg := "p", imports := ["fmt", "os"] }) "fmt"
      rfl rfl (by decide) rfl rfl (by decide)
  exact h.1 "//lbl" rfl

end GoPackagesDriver
